import Mathlib

/-!
Shallow embedding of the `/faq/search` endpoint of `src/index.js`
(happibean support-widget API), covering the search aggregation and
ranking engine: query validation, corpus pagination, tokenization,
per-document scoring with a regex word-boundary bonus, the
all-terms-must-match filter, the stable descending sort, the top-10
truncation, and the result projection.

Strings are modelled as `List Char`. JavaScript's `toLowerCase` is
modelled on its ASCII fragment by `Char.toLower`; `\s` by the common
ASCII whitespace characters. The `new RegExp` construction on line 270
of the source receives patterns of the shape `\b<token>\b`; it is
modelled by a parser/matcher for the fragment of JavaScript regex
syntax reachable from such patterns: literal characters, escape
sequences, the assertions `\b`, `\B`, `^`, `$`, the classes
`\d \D \w \W \s \S`, `.`, and the quantifiers `* + ?` with their lazy
variants. Group, class and alternation syntax (`( ) [ |`) is outside
the fragment and parsed as a construction failure; no theorem below
touches such patterns. A parse failure models the `SyntaxError` thrown
by `new RegExp` on an invalid pattern.
-/

deriving instance DecidableEq for Except

namespace Happibean

/-- ASCII whitespace recognised by the model of the regex class `\s`
and of `split(/\s+/)`: space, tab, LF, VT, FF, CR. -/
def isJsSpace (c : Char) : Bool :=
  c = ' ' || c = '\t' || c = '\n' || c = Char.ofNat 11 || c = Char.ofNat 12 || c = '\r'

/-- Word characters for JavaScript's `\b` and `\w`: `[A-Za-z0-9_]`. -/
def isWordChar (c : Char) : Bool :=
  ('a' ≤ c && c ≤ 'z') || ('A' ≤ c && c ≤ 'Z') || ('0' ≤ c && c ≤ '9') || c = '_'

/-- Model of JavaScript `String.prototype.includes`: `needle` occurs as a
contiguous substring of `hay`. -/
def strIncludes (hay needle : List Char) : Bool :=
  needle.isPrefixOf hay ||
    match hay with
    | [] => false
    | _ :: t => strIncludes t needle

/-- Lowercasing of a string, `toLowerCase` on the ASCII fragment. -/
def lowerStr (s : List Char) : List Char :=
  s.map Char.toLower

/-- Model of `query.toLowerCase().split(/\s+/)`: split into the segments
between maximal whitespace runs. A leading or trailing whitespace run
contributes an empty segment, as in JavaScript. `cur` is the current
segment reversed, `acc` the finished segments reversed, `inWs` records
whether the previous character was whitespace (to collapse a run). -/
def splitWsGo : List Char → List Char → List (List Char) → Bool → List (List Char)
  | [], cur, acc, _ => (cur.reverse :: acc).reverse
  | c :: rest, cur, acc, inWs =>
    if isJsSpace c then
      if inWs then splitWsGo rest cur acc true
      else splitWsGo rest [] (cur.reverse :: acc) true
    else splitWsGo rest (c :: cur) acc false

/-- Split a string on runs of whitespace (`split(/\s+/)`). -/
def splitWsRuns (s : List Char) : List (List Char) :=
  splitWsGo s [] [] false

/-- Line 244 of the source:
`query.toLowerCase().split(/\s+/).filter(term => term.length > 0)`. -/
def searchTermsOf (query : List Char) : List (List Char) :=
  (splitWsRuns (lowerStr query)).filter (fun term => term.length > 0)

/-! ### The regex fragment used by the whole-word bonus -/

/-- Single-character matchers of the modelled regex fragment. -/
inductive RAtom where
  | lit : Char → RAtom
  | anyChar : RAtom
  | digitCls : Bool → RAtom
  | wordCls : Bool → RAtom
  | spaceCls : Bool → RAtom
deriving DecidableEq

/-- Zero-width assertions of the modelled regex fragment. -/
inductive RAssert where
  | wordB
  | nonWordB
  | lineStart
  | lineEnd
deriving DecidableEq

/-- Quantifier kinds `*`, `+`, `?`. -/
inductive QKind where
  | star
  | plus
  | opt
deriving DecidableEq

/-- One item of a parsed pattern: an atom, an assertion, or a
quantified atom (the `Bool` is the lazy flag from a trailing `?`). -/
inductive RItem where
  | atom : RAtom → RItem
  | assertion : RAssert → RItem
  | quant : RAtom → QKind → Bool → RItem
deriving DecidableEq

/-- Interpretation of an escape sequence `\c`, outside a class:
`\b`/`\B` are assertions, `\d \D \w \W \s \S` classes, the control
escapes map to their control characters, anything else is an identity
escape for the character itself. -/
def escItem (c : Char) : RItem :=
  if c = 'b' then .assertion .wordB
  else if c = 'B' then .assertion .nonWordB
  else if c = 'd' then .atom (.digitCls false)
  else if c = 'D' then .atom (.digitCls true)
  else if c = 'w' then .atom (.wordCls false)
  else if c = 'W' then .atom (.wordCls true)
  else if c = 's' then .atom (.spaceCls false)
  else if c = 'S' then .atom (.spaceCls true)
  else if c = 'n' then .atom (.lit '\n')
  else if c = 't' then .atom (.lit '\t')
  else if c = 'r' then .atom (.lit '\r')
  else if c = 'v' then .atom (.lit (Char.ofNat 11))
  else if c = 'f' then .atom (.lit (Char.ofNat 12))
  else if c = '0' then .atom (.lit (Char.ofNat 0))
  else .atom (.lit c)

/-- Attach a `*` or `+` quantifier to the most recent item (the head of
the reversed accumulator). Quantifying an assertion, a quantifier, or
an empty pattern is the `SyntaxError` "nothing to repeat". -/
def pushQuant (q : QKind) : List RItem → Option (List RItem)
  | RItem.atom a :: rest => some (RItem.quant a q false :: rest)
  | _ => none

/-- Attach a `?`: either an optional quantifier on an atom, or the lazy
modifier of the directly preceding quantifier. -/
def pushQuestion : List RItem → Option (List RItem)
  | RItem.atom a :: rest => some (RItem.quant a .opt false :: rest)
  | RItem.quant a q false :: rest => some (RItem.quant a q true :: rest)
  | _ => none

/-- Parser for the modelled fragment; `acc` holds the items parsed so
far, reversed. `none` models `new RegExp` throwing a `SyntaxError`
(and, conservatively, the unsupported group/class/alternation syntax,
which no pattern in the theorems below contains). -/
def parseLoop : List Char → List RItem → Option (List RItem)
  | [], acc => some acc.reverse
  | '\\' :: [], _ => none
  | '\\' :: c :: rest, acc => parseLoop rest (escItem c :: acc)
  | '*' :: rest, acc =>
    match pushQuant .star acc with
    | none => none
    | some acc2 => parseLoop rest acc2
  | '+' :: rest, acc =>
    match pushQuant .plus acc with
    | none => none
    | some acc2 => parseLoop rest acc2
  | '?' :: rest, acc =>
    match pushQuestion acc with
    | none => none
    | some acc2 => parseLoop rest acc2
  | '(' :: _, _ => none
  | ')' :: _, _ => none
  | '[' :: _, _ => none
  | '|' :: _, _ => none
  | '.' :: rest, acc => parseLoop rest (.atom .anyChar :: acc)
  | '^' :: rest, acc => parseLoop rest (.assertion .lineStart :: acc)
  | '$' :: rest, acc => parseLoop rest (.assertion .lineEnd :: acc)
  | c :: rest, acc => parseLoop rest (.atom (.lit c) :: acc)

/-- Model of `new RegExp(pattern)`: parse the pattern, `none` = throw. -/
def mkRegex (pattern : List Char) : Option (List RItem) :=
  parseLoop pattern []

/-- Does an atom match one character? -/
def atomMatch : RAtom → Char → Bool
  | .lit c, d => c = d
  | .anyChar, d => !(d = '\n' || d = '\r')
  | .digitCls neg, d => (('0' ≤ d && d ≤ '9')) != neg
  | .wordCls neg, d => isWordChar d != neg
  | .spaceCls neg, d => isJsSpace d != neg

/-- Does an assertion hold between `prev` (the character before the
current position, `none` at the start) and the rest of the input? -/
def checkAssert : RAssert → Option Char → List Char → Bool
  | .wordB, prev, s =>
    (match prev with | none => false | some c => isWordChar c)
      != (match s with | [] => false | c :: _ => isWordChar c)
  | .nonWordB, prev, s =>
    (match prev with | none => false | some c => isWordChar c)
      == (match s with | [] => false | c :: _ => isWordChar c)
  | .lineStart, prev, _ => prev.isNone
  | .lineEnd, _, s => s.isEmpty

/-- One backtracking layer of the matcher, structural on the item
sequence: the zero-width steps (assertions, skipping an optional or
starred atom) stay at the current position, and a step that consumes
the head character of `s` continues through the continuation `kons`,
which receives the items remaining after the consumed atom. `kons` is
only invoked when `s` is non-empty. -/
def matchItems (kons : List RItem → Bool) (s : List Char) (prev : Option Char) :
    List RItem → Bool
  | [] => true
  | .assertion k :: rest => checkAssert k prev s && matchItems kons s prev rest
  | .atom a :: rest =>
    match s with
    | [] => false
    | c :: _ => atomMatch a c && kons rest
  | .quant a .opt _ :: rest =>
    matchItems kons s prev rest ||
      match s with
      | [] => false
      | c :: _ => atomMatch a c && kons rest
  | .quant a .star _ :: rest =>
    matchItems kons s prev rest ||
      match s with
      | [] => false
      | c :: _ => atomMatch a c && kons (.quant a .star false :: rest)
  | .quant a .plus _ :: rest =>
    match s with
    | [] => false
    | c :: _ => atomMatch a c && kons (.quant a .star false :: rest)

/-- Can the item sequence match a prefix of `s`? `prev` is the
character before the current position. A consumed `+` atom continues
as the corresponding `*`. The lazy flag is ignored: it changes which
match is preferred, not whether one exists, and the source only uses
the boolean outcome of `String.prototype.match`. -/
def matchSeq : List RItem → Option Char → List Char → Bool
  | items, prev, [] => matchItems (fun _ => false) [] prev items
  | items, prev, c :: s2 =>
    matchItems (fun rest => matchSeq rest (some c) s2) (c :: s2) prev items

/-- Try `matchSeq` at every start position of `s`. -/
def searchFrom (r : List RItem) : Option Char → List Char → Bool
  | prev, s =>
    matchSeq r prev s ||
      match s with
      | [] => false
      | c :: s2 => searchFrom r (some c) s2

/-- Model of the truthiness of `str.match(regex)`: unanchored search. -/
def regexTest (r : List RItem) (s : List Char) : Bool :=
  searchFrom r none s

/-! ### Data model and the scoring pipeline -/

/-- A document from the Content Source, as the handler reads it:
`title` and `body` may be absent (the source defends with
`article.title || ''` and `article.body || ''`). -/
structure Article where
  id : Nat
  title : Option (List Char)
  body : Option (List Char)
  html_url : List Char
deriving DecidableEq

/-- The transient scored candidate built by the map on lines 248-274:
`{ article, score, allTermsMatch }`. -/
structure Scored where
  article : Article
  score : Nat
  allTermsMatch : Bool
deriving DecidableEq

/-- The public result shape built on lines 278-283. -/
structure RankedResult where
  id : Nat
  title : Option (List Char)
  body : List Char
  html_url : List Char
deriving DecidableEq

/-- The pattern string `` `\\b${term}\\b` `` of line 270. -/
def wordPattern (term : List Char) : List Char :=
  '\\' :: 'b' :: (term ++ ['\\', 'b'])

/-- The `for (const term of searchTerms)` loop of lines 256-271, over
the already-lowercased `title` and `body`. `Except.error ()` models an
exception escaping the loop (the unescaped `new RegExp` construction
of line 270 throwing on an invalid pattern). -/
def scoreLoop (title body : List Char) : List (List Char) → Nat → Except Unit (Nat × Bool)
  | [], score => .ok (score, true)
  | term :: rest, score =>
    let titleMatch := strIncludes title term
    let bodyMatch := strIncludes body term
    if !titleMatch && !bodyMatch then .ok (score, false)
    else
      let score1 := score + (if titleMatch then 10 else 0)
      let score2 := score1 + (if bodyMatch then 1 else 0)
      match mkRegex (wordPattern term) with
      | none => .error ()
      | some r => scoreLoop title body rest (if regexTest r title then score2 + 5 else score2)

/-- Scoring of one article (the body of the `.map` on lines 248-273):
lowercase the defaulted title and body once, run the term loop from
score 0, and package the candidate. -/
def scoreArticle (searchTerms : List (List Char)) (a : Article) : Except Unit Scored :=
  let title := lowerStr (a.title.getD [])
  let body := lowerStr (a.body.getD [])
  match scoreLoop title body searchTerms 0 with
  | .error e => .error e
  | .ok (score, allMatch) => .ok ⟨a, score, allMatch⟩

/-- `allArticles.map(article => ...)` evaluated left to right, the
first exception aborting the whole search request. -/
def scoreAll (searchTerms : List (List Char)) : List Article → Except Unit (List Scored)
  | [] => .ok []
  | a :: rest =>
    match scoreArticle searchTerms a with
    | .error e => .error e
    | .ok c =>
      match scoreAll searchTerms rest with
      | .error e => .error e
      | .ok cs => .ok (c :: cs)

/-- Line 275: `.filter(item => item.allTermsMatch)`. -/
def filterMatches (scored : List Scored) : List Scored :=
  scored.filter (fun c => c.allTermsMatch)

/-- The comparator of line 276, `(a, b) => b.score - a.score`, as the
ordering it induces: `a` may precede `b` iff the comparator is ≤ 0,
i.e. iff `b.score ≤ a.score`. -/
def scoreLE (x y : Scored) : Bool :=
  y.score ≤ x.score

/-- Line 276: `.sort((a, b) => b.score - a.score)`. `Array.prototype.sort`
is required to be stable, and the comparator orders by descending
score, so it is a stable sort with respect to `scoreLE`. -/
def sortCandidates (scored : List Scored) : List Scored :=
  (filterMatches scored).mergeSort scoreLE

/-- Line 277: `.slice(0, 10)`. -/
def rankCandidates (scored : List Scored) : List Scored :=
  (sortCandidates scored).take 10

/-- Lines 278-283: the projection to the public shape. `title` and
`html_url` are passed through unchanged; `body` is `item.article.body || ''`. -/
def project (c : Scored) : RankedResult :=
  ⟨c.article.id, c.article.title, c.article.body.getD [], c.article.html_url⟩

/-- The whole `scoredResults` pipeline of lines 247-283 applied to a
corpus, and its success value. -/
def runSearch (searchTerms : List (List Char)) (allArticles : List Article) :
    Except Unit (List RankedResult) :=
  match scoreAll searchTerms allArticles with
  | .error e => .error e
  | .ok scored => .ok ((rankCandidates scored).map project)

/-! ### Corpus pagination and the endpoint -/

/-- One response of the Content Source's paginated listing, as consumed
by the `while (nextPage)` loop of lines 233-242: either a failure
(`!response.ok`) or a page whose `articles` field may be absent
(`data.articles || []`) and whose `next` flag records whether
`data.next_page` is non-null. -/
inductive PageResp where
  | failure
  | success : Option (List Article) → Bool → PageResp
deriving DecidableEq

/-- The pagination loop of lines 230-242 with accumulator `allArticles`:
a failed page breaks out immediately; a successful page's articles are
concatenated and the loop continues exactly when `next_page` is
non-null. The list `pages` is the sequence of responses the Content
Source yields to the successive fetches. -/
def loadCorpusGo : List PageResp → List Article → List Article
  | [], acc => acc
  | .failure :: _, acc => acc
  | .success arts next :: rest, acc =>
    let acc2 := acc ++ arts.getD []
    if next then loadCorpusGo rest acc2 else acc2

/-- The corpus accumulated by the pagination loop, from an empty
`allArticles`. -/
def loadCorpus (pages : List PageResp) : List Article :=
  loadCorpusGo pages []

/-- The query parameter `req.query.q` as Express delivers it: absent,
a non-string value (e.g. a repeated parameter), or a string. -/
inductive QueryParam where
  | absent
  | nonString
  | str : List Char → QueryParam

/-- The observable response of `GET /faq/search`: the 400 of line 226,
the 200 of line 285, or the 500 of line 289 (an exception reached the
catch block). -/
inductive SearchResponse where
  | clientError
  | ok : List RankedResult → Nat → SearchResponse
  | serverError
deriving DecidableEq

/-- The `/faq/search` handler of lines 221-291: validate that `q` is a
truthy string (absent, non-string and empty-string values are the 400
of line 226); fetch the corpus; tokenize; run the scoring pipeline;
respond with `{ results, count: results.length }`. -/
def faqSearch (q : QueryParam) (pages : List PageResp) : SearchResponse :=
  match q with
  | .absent => .clientError
  | .nonString => .clientError
  | .str s =>
    if s.isEmpty then .clientError
    else
      let allArticles := loadCorpus pages
      let searchTerms := searchTermsOf s
      match runSearch searchTerms allArticles with
      | .error _ => .serverError
      | .ok results => .ok results results.length

/-- A one-article corpus page used in concrete instances. -/
def exArticleA : Article := ⟨1, some ['a'], none, []⟩

/-- A single final page containing `exArticleA`. -/
def exPages : List PageResp := [.success (some [exArticleA]) false]

/-- An article whose title is the literal text `c++`. -/
def cppArticle : Article := ⟨3, some ['c', '+', '+'], none, []⟩

/-- A document whose title is `ab c` and whose body is `x`. -/
def exDoc : Article := ⟨7, some ['a', 'b', ' ', 'c'], some ['x'], ['u']⟩

/-- First page of the three-page pagination scenario: 100 documents. -/
def arts1 : List Article := (List.range 100).map (fun n => ⟨n, none, none, []⟩)

/-- Second page of the three-page pagination scenario: 100 documents. -/
def arts2 : List Article := (List.range 100).map (fun n => ⟨100 + n, none, none, []⟩)

/-- Last page of the three-page pagination scenario: 7 documents. -/
def arts3 : List Article := (List.range 7).map (fun n => ⟨200 + n, none, none, []⟩)

/-- A Content Source answering three pages of 100, 100 and 7 documents,
the last with a null next-page locator. -/
def pages207 : List PageResp :=
  [.success (some arts1) true, .success (some arts2) true, .success (some arts3) false]

/-- Per-token score contribution, for stating the scoring claim: +10
for a title substring hit, +1 for a body substring hit, +5 for a
whole-word title match (via the same unescaped pattern the code
builds). -/
def contrib (title body term : List Char) : Nat :=
  (if strIncludes title term then 10 else 0) +
    (if strIncludes body term then 1 else 0) +
    (if (match mkRegex (wordPattern term) with
          | none => false
          | some r => regexTest r title) then 5 else 0)

/-! ### Helper lemmas -/

theorem isJsSpace_toLower {c : Char} (h : isJsSpace c = true) : Char.toLower c = c := by
  simp only [isJsSpace, Bool.or_eq_true, decide_eq_true_eq] at h
  rcases h with ((((h | h) | h) | h) | h) | h <;> subst h <;> decide

theorem splitWsGo_all_nil :
    ∀ (s : List Char) (acc : List (List Char)) (inWs : Bool),
      (∀ c ∈ s, isJsSpace c = true) → (∀ t ∈ acc, t = []) →
      ∀ t ∈ splitWsGo s [] acc inWs, t = [] := by
  intro s
  induction s with
  | nil =>
    intro acc inWs _ hacc t ht
    simp only [splitWsGo, List.reverse_nil, List.mem_reverse, List.mem_cons] at ht
    rcases ht with h | h
    · exact h
    · exact hacc t h
  | cons c rest ih =>
    intro acc inWs hs hacc t ht
    have hc : isJsSpace c = true := hs c (List.mem_cons_self c rest)
    have hrest : ∀ d ∈ rest, isJsSpace d = true := fun d hd => hs d (List.mem_cons_of_mem c hd)
    simp only [splitWsGo, hc, if_true] at ht
    cases inWs with
    | true => exact ih acc true hrest hacc t ht
    | false =>
      refine ih ([] :: acc) true hrest ?_ t ?_
      · intro u hu
        rcases List.mem_cons.mp hu with h | h
        · exact h
        · exact hacc u h
      · simpa using ht

theorem searchTermsOf_ws {s : List Char} (h : ∀ c ∈ s, isJsSpace c = true) :
    searchTermsOf s = [] := by
  apply List.filter_eq_nil_iff.mpr
  intro t ht
  have hlw : ∀ c ∈ lowerStr s, isJsSpace c = true := by
    intro c hc
    rcases List.mem_map.mp hc with ⟨d, hd, hdc⟩
    have hws := h d hd
    rw [← hdc, isJsSpace_toLower hws]
    exact hws
  have : t = [] := splitWsGo_all_nil (lowerStr s) [] false hlw (by intro u hu; cases hu) t ht
  subst this
  decide

theorem scoreArticle_nil_terms (a : Article) : scoreArticle [] a = .ok ⟨a, 0, true⟩ := rfl

theorem scoreAll_nil_terms :
    ∀ arts : List Article, scoreAll [] arts = .ok (arts.map fun a => ⟨a, 0, true⟩) := by
  intro arts
  induction arts with
  | nil => rfl
  | cons a rest ih => simp [scoreAll, scoreArticle_nil_terms, ih]

theorem sortCandidates_const_score {scored : List Scored} (v : Nat)
    (h : ∀ c ∈ scored, c.allTermsMatch = true ∧ c.score = v) :
    sortCandidates scored = scored := by
  unfold sortCandidates
  have hf : filterMatches scored = scored :=
    List.filter_eq_self.mpr (fun c hc => by simp [(h c hc).1])
  rw [hf]
  apply List.mergeSort_of_sorted
  apply List.pairwise_of_forall_mem_list
  intro x hx y hy
  simp [scoreLE, (h x hx).2, (h y hy).2]

/-! ### C1 -/

/-- C1 counterexample: the query consisting of a single space is a
truthy string, so it passes the validation of line 225; the claim that
it fails with `InvalidQuery` (a client error) is false. -/
theorem c1_counterexample :
    faqSearch (QueryParam.str [' ']) exPages ≠ SearchResponse.clientError := by decide

/-- C1 (amended): a search fails with the client error exactly for an
absent, non-string, or empty-string query; a query made of whitespace
only is NOT rejected: it yields zero tokens, the corpus is still
fetched and scored, every document trivially matches with score 0, and
the first (up to) 10 corpus documents are returned in corpus order. -/
theorem c1_query_validation :
    (∀ pages, faqSearch .absent pages = .clientError) ∧
    (∀ pages, faqSearch .nonString pages = .clientError) ∧
    (∀ pages, faqSearch (.str []) pages = .clientError) ∧
    (∀ pages (s : List Char), s ≠ [] → (∀ c ∈ s, isJsSpace c = true) →
      searchTermsOf s = [] ∧
      faqSearch (.str s) pages =
        .ok (((loadCorpus pages).map (fun a => project ⟨a, 0, true⟩)).take 10)
          (((loadCorpus pages).map (fun a => project ⟨a, 0, true⟩)).take 10).length) := by
  refine ⟨fun _ => rfl, fun _ => rfl, fun _ => rfl, ?_⟩
  intro pages s hne hws
  have hterms : searchTermsOf s = [] := searchTermsOf_ws hws
  refine ⟨hterms, ?_⟩
  have hEmpty : s.isEmpty = false := by simp [List.isEmpty_eq_false, hne]
  simp only [faqSearch, hEmpty, Bool.false_eq_true, if_false, hterms]
  simp only [runSearch, scoreAll_nil_terms, rankCandidates]
  rw [sortCandidates_const_score 0
    (by intro c hc; rcases List.mem_map.mp hc with ⟨a, _, rfl⟩; exact ⟨rfl, rfl⟩)]
  simp only [List.map_take, List.map_map]
  rfl

/-- C1 witness: the amended statement applied to the one-space query
and the one-article corpus. -/
theorem c1_witness :
    searchTermsOf [' '] = [] ∧
      faqSearch (.str [' ']) exPages =
        .ok (((loadCorpus exPages).map (fun a => project ⟨a, 0, true⟩)).take 10)
          (((loadCorpus exPages).map (fun a => project ⟨a, 0, true⟩)).take 10).length :=
  c1_query_validation.2.2.2 exPages [' '] (by decide) (by decide)

/-! ### C2 -/

/-- C2: the claim is the intended behavior, but the code skips the
escaping: line 270 builds `new RegExp` from the raw token, so the
token `c++` produces the invalid pattern `\bc++\b`, the construction
throws, and a search whose corpus contains `c++` answers the 500
response instead of matching literally. -/
theorem c2_regex_not_escaped :
    mkRegex (wordPattern ['c', '+', '+']) = none ∧
      faqSearch (.str ['c', '+', '+']) [PageResp.success (some [cppArticle]) false] =
        .serverError := by decide

/-! ### Scoring lemmas -/

theorem scoreLoop_all_hits :
    ∀ (terms : List (List Char)) (title body : List Char) (n : Nat),
      (∀ t ∈ terms, strIncludes title t || strIncludes body t) →
      (∀ t ∈ terms, (mkRegex (wordPattern t)).isSome) →
      scoreLoop title body terms n = .ok (n + (terms.map (contrib title body)).sum, true) := by
  intro terms
  induction terms with
  | nil => intro title body n _ _; simp [scoreLoop]
  | cons t rest ih =>
    intro title body n hhit hsome
    have h1 : (strIncludes title t || strIncludes body t) = true := hhit t (by simp)
    obtain ⟨r, hr⟩ := Option.isSome_iff_exists.mp (hsome t (by simp))
    have hor : strIncludes title t = true ∨ strIncludes body t = true := by simpa using h1
    have hcond : (!strIncludes title t && !strIncludes body t) = false := by
      rcases hor with h2 | h2 <;> simp [h2]
    simp only [scoreLoop, hcond, Bool.false_eq_true, if_false, hr]
    rw [ih title body _ (fun u hu => hhit u (by simp [hu])) (fun u hu => hsome u (by simp [hu]))]
    simp only [List.map_cons, List.sum_cons, contrib, hr, Except.ok.injEq, Prod.mk.injEq,
      and_true]
    clear hhit hsome ih h1 hor hcond
    cases htm : strIncludes title t <;> cases hbm : strIncludes body t <;>
      cases hw : regexTest r title <;> simp [htm, hbm, hw] <;> omega

theorem scoreLoop_true_hits :
    ∀ (terms : List (List Char)) (title body : List Char) (n s : Nat),
      scoreLoop title body terms n = .ok (s, true) →
      ∀ t ∈ terms, strIncludes title t || strIncludes body t := by
  intro terms
  induction terms with
  | nil => intro title body n s _ t ht; cases ht
  | cons t rest ih =>
    intro title body n s h u hu
    cases hcond : (!strIncludes title t && !strIncludes body t) with
    | true =>
      simp only [scoreLoop, hcond, if_true] at h
      simp at h
    | false =>
      simp only [scoreLoop, hcond, Bool.false_eq_true, if_false] at h
      cases hr : mkRegex (wordPattern t) with
      | none => rw [hr] at h; cases h
      | some r =>
        rw [hr] at h
        rcases List.mem_cons.mp hu with rfl | hu2
        · cases hA : strIncludes title u
          · cases hB : strIncludes body u
            · rw [hA, hB] at hcond
              exact absurd hcond (by decide)
            · rfl
          · rfl
        · exact ih title body _ s h u hu2

theorem scoreLoop_first_miss :
    ∀ (pre : List (List Char)) (t : List Char) (post : List (List Char))
      (title body : List Char) (n : Nat),
      (∀ u ∈ pre, strIncludes title u || strIncludes body u) →
      (∀ u ∈ pre, (mkRegex (wordPattern u)).isSome) →
      strIncludes title t = false → strIncludes body t = false →
      scoreLoop title body (pre ++ t :: post) n =
        .ok (n + (pre.map (contrib title body)).sum, false) := by
  intro pre
  induction pre with
  | nil =>
    intro t post title body n _ _ htm hbm
    simp [scoreLoop, htm, hbm]
  | cons u pre2 ih =>
    intro t post title body n hhit hsome htm hbm
    have h1 : (strIncludes title u || strIncludes body u) = true := hhit u (by simp)
    obtain ⟨r, hr⟩ := Option.isSome_iff_exists.mp (hsome u (by simp))
    have hor : strIncludes title u = true ∨ strIncludes body u = true := by simpa using h1
    have hcond : (!strIncludes title u && !strIncludes body u) = false := by
      rcases hor with h2 | h2 <;> simp [h2]
    simp only [List.cons_append, scoreLoop, hcond, Bool.false_eq_true, if_false, hr,
      List.append_eq]
    rw [ih t post title body _ (fun w hw => hhit w (by simp [hw]))
      (fun w hw => hsome w (by simp [hw])) htm hbm]
    simp only [List.map_cons, List.sum_cons, contrib, hr, Except.ok.injEq, Prod.mk.injEq,
      and_true]
    clear hhit hsome ih h1 hor hcond
    cases h2 : strIncludes title u <;> cases h3 : strIncludes body u <;>
      cases hw : regexTest r title <;> simp [h2, h3, hw] <;> omega

theorem scoreArticle_ok_article {terms : List (List Char)} {a : Article} {c : Scored}
    (h : scoreArticle terms a = .ok c) : c.article = a := by
  simp only [scoreArticle] at h
  cases hl : scoreLoop (lowerStr (a.title.getD [])) (lowerStr (a.body.getD [])) terms 0 with
  | error e => rw [hl] at h; cases h
  | ok p => rw [hl] at h; cases h; rfl

theorem scoreAll_ok_mem :
    ∀ (arts : List Article) (terms : List (List Char)) (scored : List Scored),
      scoreAll terms arts = .ok scored →
      ∀ c ∈ scored, ∃ a ∈ arts, scoreArticle terms a = .ok c := by
  intro arts
  induction arts with
  | nil => intro terms scored h c hc; cases h; cases hc
  | cons a rest ih =>
    intro terms scored h c hc
    simp only [scoreAll] at h
    cases h1 : scoreArticle terms a with
    | error e => rw [h1] at h; cases h
    | ok c0 =>
      rw [h1] at h
      cases h2 : scoreAll terms rest with
      | error e => rw [h2] at h; cases h
      | ok cs =>
        rw [h2] at h
        cases h
        rcases List.mem_cons.mp hc with rfl | hc2
        · exact ⟨a, by simp, h1⟩
        · rcases ih terms cs h2 c hc2 with ⟨b, hb, hsc⟩
          exact ⟨b, by simp [hb], hsc⟩

theorem scoreAll_ok_all_false :
    ∀ (arts : List Article) (terms : List (List Char)),
      (∀ a ∈ arts, ∃ sc, scoreArticle terms a = .ok ⟨a, sc, false⟩) →
      ∃ cs, scoreAll terms arts = .ok cs ∧ ∀ c ∈ cs, c.allTermsMatch = false := by
  intro arts
  induction arts with
  | nil => intro terms _; exact ⟨[], rfl, by intro c hc; cases hc⟩
  | cons a rest ih =>
    intro terms h
    obtain ⟨sc, hsc⟩ := h a (by simp)
    obtain ⟨cs, hcs, hall⟩ := ih terms (fun b hb => h b (by simp [hb]))
    refine ⟨⟨a, sc, false⟩ :: cs, ?_, ?_⟩
    · simp only [scoreAll, hsc, hcs]
    · intro c hc
      rcases List.mem_cons.mp hc with rfl | hc2
      · rfl
      · exact hall c hc2

theorem runSearch_ok_mem {terms : List (List Char)} {articles : List Article}
    {results : List RankedResult} {r : RankedResult}
    (h : runSearch terms articles = .ok results) (hr : r ∈ results) :
    ∃ a ∈ articles, ∃ sc, scoreArticle terms a = .ok ⟨a, sc, true⟩ ∧
      r = project ⟨a, sc, true⟩ := by
  unfold runSearch at h
  cases h1 : scoreAll terms articles with
  | error e => rw [h1] at h; cases h
  | ok scored =>
    rw [h1] at h
    cases h
    rcases List.mem_map.mp hr with ⟨c, hc, rfl⟩
    have hc2 : c ∈ sortCandidates scored := List.mem_of_mem_take hc
    have hc3 : c ∈ filterMatches scored := by
      have := List.mem_mergeSort.mp hc2
      exact this
    have hc4 : c ∈ scored ∧ c.allTermsMatch = true := by
      have := List.mem_filter.mp hc3
      simpa using this
    rcases scoreAll_ok_mem articles terms scored h1 c hc4.1 with ⟨a, ha, hsc⟩
    have hart : c.article = a := scoreArticle_ok_article hsc
    refine ⟨a, ha, c.score, ?_, ?_⟩
    · have : c = ⟨a, c.score, true⟩ := by
        cases c
        simp_all
      rw [← this]
      exact hsc
    · have : c = ⟨a, c.score, true⟩ := by
        cases c
        simp_all
      rw [← this]

/-! ### C3 -/

/-- C3: when every token hits (is a substring of the lowercased title
or body) and every word-boundary pattern compiles, the final score is
the sum over tokens, in order, of +10 for a title substring hit, +1
for a body substring hit, and +5 for a whole-word title match, the
bonus stacking per token. -/
theorem c3_score_decomposition :
    ∀ (searchTerms : List (List Char)) (a : Article),
      (∀ t ∈ searchTerms,
        strIncludes (lowerStr (a.title.getD [])) t || strIncludes (lowerStr (a.body.getD [])) t) →
      (∀ t ∈ searchTerms, (mkRegex (wordPattern t)).isSome) →
      scoreArticle searchTerms a =
        .ok ⟨a, (searchTerms.map
          (contrib (lowerStr (a.title.getD [])) (lowerStr (a.body.getD [])))).sum, true⟩ := by
  intro terms a hhit hsome
  simp only [scoreArticle]
  rw [scoreLoop_all_hits terms _ _ 0 hhit hsome]
  simp

/-- C3 witness: tokens `ab` and `c` against the document titled `ab c`
with body `x`: each token scores 10 + 5, giving 30. -/
theorem c3_witness :
    scoreArticle [['a', 'b'], ['c']] exDoc =
      .ok ⟨exDoc, ([['a', 'b'], ['c']].map
        (contrib (lowerStr (exDoc.title.getD [])) (lowerStr (exDoc.body.getD [])))).sum, true⟩ ∧
    ([['a', 'b'], ['c']].map
      (contrib (lowerStr (exDoc.title.getD [])) (lowerStr (exDoc.body.getD [])))).sum = 30 :=
  ⟨c3_score_decomposition [['a', 'b'], ['c']] exDoc (by decide) (by decide), by decide⟩

/-! ### C4 -/

/-- C4: (1) a token hitting neither the lowercased title nor body makes
the score loop stop at that token with `allTermsMatch = false` — the
remaining tokens are not evaluated, so the result is the same as if
they were absent; (2) a candidate with `allTermsMatch = false` never
passes the filter; (3) every returned result comes from a corpus
document all of whose tokens hit; (4) when every document fails the
filter the search succeeds with an empty result list. -/
theorem c4_all_terms_must_match :
    (∀ (pre : List (List Char)) (t : List Char) (post : List (List Char)) (a : Article),
      (∀ u ∈ pre, strIncludes (lowerStr (a.title.getD [])) u ||
        strIncludes (lowerStr (a.body.getD [])) u) →
      (∀ u ∈ pre, (mkRegex (wordPattern u)).isSome) →
      strIncludes (lowerStr (a.title.getD [])) t = false →
      strIncludes (lowerStr (a.body.getD [])) t = false →
      scoreArticle (pre ++ t :: post) a = scoreArticle (pre ++ [t]) a ∧
      ∃ sc, scoreArticle (pre ++ t :: post) a = .ok ⟨a, sc, false⟩) ∧
    (∀ (c : Scored) (scored : List Scored),
      c.allTermsMatch = false → c ∉ filterMatches scored) ∧
    (∀ (terms : List (List Char)) (articles : List Article)
        (results : List RankedResult) (r : RankedResult),
      runSearch terms articles = .ok results → r ∈ results →
      ∃ a ∈ articles, ∀ t ∈ terms,
        strIncludes (lowerStr (a.title.getD [])) t ||
          strIncludes (lowerStr (a.body.getD [])) t) ∧
    (∀ (terms : List (List Char)) (articles : List Article),
      (∀ a ∈ articles, ∃ sc, scoreArticle terms a = .ok ⟨a, sc, false⟩) →
      runSearch terms articles = .ok []) := by
  refine ⟨?_, ?_, ?_, ?_⟩
  · intro pre t post a hhit hsome htm hbm
    have h1 := scoreLoop_first_miss pre t post _ _ 0 hhit hsome htm hbm
    have h2 := scoreLoop_first_miss pre t [] _ _ 0 hhit hsome htm hbm
    simp only [scoreArticle]
    rw [h1, h2]
    exact ⟨rfl, (pre.map (contrib (lowerStr (a.title.getD []))
      (lowerStr (a.body.getD [])))).sum, by rw [Nat.zero_add]⟩
  · intro c scored hc hmem
    have := (List.mem_filter.mp hmem).2
    rw [hc] at this
    cases this
  · intro terms articles results r h hr
    rcases runSearch_ok_mem h hr with ⟨a, ha, sc, hsc, _⟩
    refine ⟨a, ha, ?_⟩
    simp only [scoreArticle] at hsc
    cases hl : scoreLoop (lowerStr (a.title.getD [])) (lowerStr (a.body.getD [])) terms 0 with
    | error e => rw [hl] at hsc; cases hsc
    | ok p =>
      rw [hl] at hsc
      have hp : p = (sc, true) := by
        obtain ⟨ps, pm⟩ := p
        simp only [Except.ok.injEq, Scored.mk.injEq] at hsc
        simp [hsc.2.1, hsc.2.2]
      rw [hp] at hl
      exact scoreLoop_true_hits terms _ _ 0 sc hl
  · intro terms articles hall
    obtain ⟨cs, hcs, hfalse⟩ := scoreAll_ok_all_false articles terms hall
    simp only [runSearch, hcs]
    have hfilter : filterMatches cs = [] := by
      apply List.filter_eq_nil_iff.mpr
      intro c hc
      simp [hfalse c hc]
    simp [rankCandidates, sortCandidates, hfilter]

/-- C4 witness: token `z` misses the document titled `ab c` with body
`x`, after the hitting token `ab`; the loop stops, later tokens are
ignored, the candidate is marked unmatched, and a corpus made of this
document alone yields an empty success. -/
theorem c4_witness :
    (scoreArticle ([['a', 'b']] ++ ['z'] :: [['q']]) exDoc =
        scoreArticle ([['a', 'b']] ++ [['z']]) exDoc ∧
      ∃ sc, scoreArticle ([['a', 'b']] ++ ['z'] :: [['q']]) exDoc = .ok ⟨exDoc, sc, false⟩) ∧
    runSearch [['z']] [exDoc] = .ok [] :=
  ⟨c4_all_terms_must_match.1 [['a', 'b']] ['z'] [['q']] exDoc
      (by decide) (by decide) (by decide) (by decide),
    c4_all_terms_must_match.2.2.2 [['z']] [exDoc]
      (by intro a ha
          rcases List.mem_singleton.mp ha with rfl
          exact ⟨0, rfl⟩)⟩

/-! ### C5 -/

theorem scoreLE_trans : ∀ a b c : Scored, scoreLE a b → scoreLE b c → scoreLE a c := by
  intro a b c h1 h2
  simp only [scoreLE, decide_eq_true_eq] at h1 h2 ⊢
  omega

theorem scoreLE_total : ∀ a b : Scored, scoreLE a b || scoreLE b a := by
  intro a b
  simp only [scoreLE, Bool.or_eq_true, decide_eq_true_eq]
  omega

/-- C5: the retained candidates are ordered by non-increasing score
(strictly higher scores come first), and for each score value the
candidates carrying it appear in the sorted stage exactly as they
appear in the filtered stage, which preserves corpus order — the
descending sort is stable. -/
theorem c5_stable_descending_sort :
    ∀ (scored : List Scored),
      (rankCandidates scored).Pairwise (fun x y => y.score ≤ x.score) ∧
      ∀ v : Nat, (sortCandidates scored).filter (fun c => c.score == v) =
        (filterMatches scored).filter (fun c => c.score == v) := by
  intro scored
  constructor
  · have hs := List.sorted_mergeSort scoreLE_trans scoreLE_total (filterMatches scored)
    have ht : List.Sublist (rankCandidates scored) (sortCandidates scored) :=
      List.take_sublist _ _
    exact (List.Pairwise.sublist ht hs).imp
      (by intro x y h; simpa [scoreLE] using h)
  · intro v
    have hA : ((filterMatches scored).filter (fun c => c.score == v)).Pairwise
        (fun a b => scoreLE a b) := by
      apply List.pairwise_of_forall_mem_list
      intro x hx y hy
      have hxv : x.score = v := by simpa using (List.mem_filter.mp hx).2
      have hyv : y.score = v := by simpa using (List.mem_filter.mp hy).2
      simp [scoreLE, hxv, hyv]
    have hsub : List.Sublist ((filterMatches scored).filter (fun c => c.score == v))
        ((filterMatches scored).mergeSort scoreLE) :=
      List.sublist_mergeSort scoreLE_trans scoreLE_total hA (List.filter_sublist _)
    have h2 := List.Sublist.filter (fun c => c.score == v) hsub
    have h3 : ((filterMatches scored).filter (fun c => c.score == v)).filter
        (fun c => c.score == v) = (filterMatches scored).filter (fun c => c.score == v) :=
      List.filter_eq_self.mpr (fun a ha => (List.mem_filter.mp ha).2)
    rw [h3] at h2
    have hperm :=
      (List.mergeSort_perm (filterMatches scored) scoreLE).filter (fun c => c.score == v)
    exact (List.Sublist.eq_of_length h2 hperm.length_eq.symm).symm

/-! ### C6 -/

/-- C6: a successful search never returns more than 10 results — the
pipeline keeps only the first 10 sorted candidates. -/
theorem c6_top_ten :
    ∀ (terms : List (List Char)) (articles : List Article) (results : List RankedResult),
      terms ≠ [] → runSearch terms articles = .ok results → results.length ≤ 10 := by
  intro terms articles results _ h
  unfold runSearch at h
  cases h1 : scoreAll terms articles with
  | error e => rw [h1] at h; cases h
  | ok scored =>
    rw [h1] at h
    cases h
    simp only [List.length_map, rankCandidates, List.length_take]
    exact Nat.min_le_left _ _

theorem runSearch_single_a :
    runSearch [['a']] [exArticleA] = .ok [⟨1, some ['a'], [], []⟩] := by
  have h1 : scoreAll [['a']] [exArticleA] = .ok [⟨exArticleA, 15, true⟩] := by decide
  simp only [runSearch, h1, rankCandidates, sortCandidates, filterMatches]
  simp [exArticleA, project]

/-- C6 witness: the one-token query `a` over the one-document corpus
returns one result, within the bound. -/
theorem c6_witness :
    ([['a']] : List (List Char)) ≠ [] ∧
      runSearch [['a']] [exArticleA] = .ok [⟨1, some ['a'], [], []⟩] ∧
      ([(⟨1, some ['a'], [], []⟩ : RankedResult)]).length ≤ 10 :=
  ⟨by decide, runSearch_single_a,
    c6_top_ten [['a']] [exArticleA] [⟨1, some ['a'], [], []⟩] (by decide) runSearch_single_a⟩

/-! ### C7 -/

theorem loadCorpusGo_acc :
    ∀ (pages : List PageResp) (acc : List Article),
      loadCorpusGo pages acc = acc ++ loadCorpusGo pages [] := by
  intro pages
  induction pages with
  | nil => intro acc; simp [loadCorpusGo]
  | cons p rest ih =>
    intro acc
    cases p with
    | failure => simp [loadCorpusGo]
    | success arts next =>
      cases next with
      | true =>
        simp only [loadCorpusGo, if_true]
        rw [ih (acc ++ arts.getD []), ih ([] ++ arts.getD [])]
        simp [List.append_assoc]
      | false => simp [loadCorpusGo]

/-- C7: the pagination loop concatenates every page's documents in
arrival order and stops exactly at the page whose next-page locator is
null; in particular three pages of 100, 100 and 7 documents yield a
corpus of 207 documents in page order. -/
theorem c7_pagination :
    (∀ (pre : List (List Article)) (last : List Article),
      loadCorpus ((pre.map (fun l => PageResp.success (some l) true)) ++
        [.success (some last) false]) = pre.flatten ++ last) ∧
    loadCorpus pages207 = arts1 ++ arts2 ++ arts3 ∧
    (loadCorpus pages207).length = 207 := by
  have hgen : ∀ (pre : List (List Article)) (last : List Article),
      loadCorpus ((pre.map (fun l => PageResp.success (some l) true)) ++
        [.success (some last) false]) = pre.flatten ++ last := by
    intro pre
    induction pre with
    | nil => intro last; simp [loadCorpus, loadCorpusGo]
    | cons l pre2 ih =>
      intro last
      simp only [List.map_cons, List.cons_append, loadCorpus, loadCorpusGo, if_true]
      rw [loadCorpusGo_acc]
      have h2 := ih last
      simp only [loadCorpus] at h2
      simp [h2]
  have hconc : loadCorpus pages207 = arts1 ++ arts2 ++ arts3 := by
    have h3 := hgen [arts1, arts2] arts3
    simpa [pages207, List.append_assoc] using h3
  refine ⟨hgen, hconc, ?_⟩
  rw [hconc]
  simp [arts1, arts2, arts3]

/-! ### C8 -/

theorem loadCorpus_fail :
    ∀ (pre : List (List Article)) (rest : List PageResp),
      loadCorpus ((pre.map (fun l => PageResp.success (some l) true)) ++
        .failure :: rest) = pre.flatten := by
  intro pre
  induction pre with
  | nil => intro rest; simp [loadCorpus, loadCorpusGo]
  | cons l pre2 ih =>
    intro rest
    simp only [List.map_cons, List.cons_append, loadCorpus, loadCorpusGo, if_true]
    rw [loadCorpusGo_acc]
    have h2 := ih rest
    simp only [loadCorpus] at h2
    simp [h2]

/-- C8: when a page request fails, pagination stops with the documents
accumulated so far, and the search still answers 200 with the results
ranked over exactly that truncated corpus (the failure is not
surfaced; logging is outside the model). -/
theorem c8_truncated_corpus :
    ∀ (pre : List (List Article)) (rest : List PageResp) (s : List Char)
      (rs : List RankedResult),
      s ≠ [] →
      runSearch (searchTermsOf s) pre.flatten = .ok rs →
      loadCorpus ((pre.map (fun l => PageResp.success (some l) true)) ++
        .failure :: rest) = pre.flatten ∧
      faqSearch (.str s) ((pre.map (fun l => PageResp.success (some l) true)) ++
        .failure :: rest) = .ok rs rs.length := by
  intro pre rest s rs hne hrun
  have hload := loadCorpus_fail pre rest
  refine ⟨hload, ?_⟩
  have hEmpty : s.isEmpty = false := by simp [List.isEmpty_eq_false, hne]
  simp only [faqSearch, hEmpty, Bool.false_eq_true, if_false, hload, hrun]

/-- C8 witness: one successful page with one document, then a failed
page: the corpus is the first page alone and the search succeeds on it. -/
theorem c8_witness :
    loadCorpus (([[exArticleA]].map (fun l => PageResp.success (some l) true)) ++
      .failure :: []) = [[exArticleA]].flatten ∧
    faqSearch (.str ['a']) (([[exArticleA]].map (fun l => PageResp.success (some l) true)) ++
      .failure :: []) = .ok [⟨1, some ['a'], [], []⟩] [(⟨1, some ['a'], [], []⟩ : RankedResult)].length :=
  c8_truncated_corpus [[exArticleA]] [] ['a'] [⟨1, some ['a'], [], []⟩] (by decide)
    (by rw [show ([[exArticleA]] : List (List Article)).flatten = [exArticleA] by simp]
        exact runSearch_single_a)

/-! ### C9 -/

/-- C9: every returned result is the projection of a corpus document:
`id`, `title` and `url` are passed through unchanged and `body` is the
document's body defaulted to the empty string, so `body` is present in
every result even when the source document has none. -/
theorem c9_projection :
    ∀ (terms : List (List Char)) (articles : List Article)
      (results : List RankedResult) (r : RankedResult),
      runSearch terms articles = .ok results → r ∈ results →
      ∃ a, a ∈ articles ∧ r.id = a.id ∧ r.title = a.title ∧ r.html_url = a.html_url ∧
        r.body = a.body.getD [] ∧ (a.body = none → r.body = []) := by
  intro terms articles results r h hr
  rcases runSearch_ok_mem h hr with ⟨a, ha, sc, _, rfl⟩
  refine ⟨a, ha, rfl, rfl, rfl, rfl, ?_⟩
  intro hb
  simp [project, hb]

/-- C9 witness: the single result of the query `a` over the corpus
`[exArticleA]` projects `exArticleA`, whose absent body becomes the
empty string. -/
theorem c9_witness :
    ∃ a, a ∈ [exArticleA] ∧ (⟨1, some ['a'], [], []⟩ : RankedResult).id = a.id ∧
      (⟨1, some ['a'], [], []⟩ : RankedResult).title = a.title ∧
      (⟨1, some ['a'], [], []⟩ : RankedResult).html_url = a.html_url ∧
      (⟨1, some ['a'], [], []⟩ : RankedResult).body = a.body.getD [] ∧
      (a.body = none → (⟨1, some ['a'], [], []⟩ : RankedResult).body = []) :=
  c9_projection [['a']] [exArticleA] [⟨1, some ['a'], [], []⟩] ⟨1, some ['a'], [], []⟩
    runSearch_single_a (by decide)

/-! ### C10 -/

theorem faqSearch_single_a :
    faqSearch (.str ['a']) exPages = .ok [⟨1, some ['a'], [], []⟩] 1 := by
  simp only [faqSearch, List.isEmpty_cons, Bool.false_eq_true, if_false]
  rw [show searchTermsOf ['a'] = [['a']] from rfl,
    show loadCorpus exPages = [exArticleA] from rfl, runSearch_single_a]
  rfl

/-- C10: every 200 response of the search endpoint carries a `count`
equal to the length of its `results` array. -/
theorem c10_count_matches_results :
    ∀ (q : QueryParam) (pages : List PageResp) (results : List RankedResult) (count : Nat),
      faqSearch q pages = .ok results count → count = results.length := by
  intro q pages results count h
  cases q with
  | absent => cases h
  | nonString => cases h
  | str s =>
    simp only [faqSearch] at h
    cases he : s.isEmpty with
    | true => rw [he] at h; simp at h
    | false =>
      rw [he] at h
      simp only [Bool.false_eq_true, if_false] at h
      cases hr : runSearch (searchTermsOf s) (loadCorpus pages) with
      | error e => rw [hr] at h; cases h
      | ok rs =>
        rw [hr] at h
        cases h
        rfl

/-- C10 witness: the query `a` over the one-page corpus answers one
result with count 1. -/
theorem c10_witness :
    faqSearch (.str ['a']) exPages = .ok [⟨1, some ['a'], [], []⟩] 1 ∧
      (1 : Nat) = [(⟨1, some ['a'], [], []⟩ : RankedResult)].length :=
  ⟨faqSearch_single_a,
    c10_count_matches_results (.str ['a']) exPages [⟨1, some ['a'], [], []⟩] 1 faqSearch_single_a⟩

end Happibean
